import Mathlib

/-!
Verification of the srec2inc converter (srec2inc.cpp, atoh.cpp).

The development shallowly embeds the two source files:

* `atoh` models the templated hex decoder `atoh<T>` from atoh.cpp: it scans
  hex digits, accumulates `value = value*16 + digit` on the C type `T`
  (modelled by reduction modulo `2^w`), and bails out with an overflow
  diagnostic (modelled as a `Bool`) once `sizeof(T)*2` digits have been
  consumed.
* `hexVal` models a `sscanf("%x")` call on a character buffer: it consumes
  the maximal hex-digit prefix.
* `emitStep` / `emitLoop` / `emitRecord` model the per-record packet
  emission loop of `buildIncFile` (the S2 branch), at the level of the
  structured data each `out <<` statement writes: one `Packet` per emitted
  `_LEN` constant / array declaration pair.  The loop is embedded with
  explicit fuel because the C `do { ... } while (rec_len != 0)` loop is not
  obviously total (and indeed is proved below to diverge on empty payloads).
* `runLines` models the record-classification driver loop of
  `buildIncFile`, and `processNFlag` / `mainPktSize` model the `-N` flag
  handling in `main`.
-/

namespace Srec2Inc

/-- Numeric value of an ASCII hex digit, following the three range checks of
the C sources (`'0'..'9'`, `'a'..'f'`, `'A'..'F'`); `none` for any other
character. -/
def hexDigit? (c : Char) : Option Nat :=
  if 48 ≤ c.toNat ∧ c.toNat ≤ 57 then some (c.toNat - 48)
  else if 97 ≤ c.toNat ∧ c.toNat ≤ 102 then some (c.toNat - 87)
  else if 65 ≤ c.toNat ∧ c.toNat ≤ 70 then some (c.toNat - 55)
  else none

/-- A character is a hex digit when `hexDigit?` accepts it. -/
def isHexDigit (c : Char) : Bool := (hexDigit? c).isSome

/-- Plain left fold accumulating hex digits: `a * 16 + digit`, with no
width restriction.  Used as the specification-level value of a digit
string. -/
def digitsVal (v : Nat) (ds : List Char) : Nat :=
  ds.foldl (fun a c => a * 16 + (hexDigit? c).getD 0) v

/-- The maximal hex-digit run at the front of a string. -/
def hexRun (s : List Char) : List Char := s.takeWhile isHexDigit

/-- Worker for `atoh`: `bail` counts how many more digits may be consumed
(`sizeof(T) << 1` initially); the accumulator is reduced mod `2^w` because
`value` has the C type `T`.  On the digit that would exceed the width the C
code prints a "Template overflow" diagnostic and breaks without consuming
it; the diagnostic is modelled by the returned `Bool`. -/
def atohGo (w : Nat) : Nat → Nat → List Char → Nat × Bool
  | _, value, [] => (value, false)
  | bail, value, c :: rest =>
    match hexDigit? c with
    | none => (value, false)
    | some d =>
      if bail = 0 then (value, true)
      else atohGo w (bail - 1) ((value * 16 + d) % 2 ^ w) rest

/-- Model of `atoh<T>(string)` for a `T` of bit width `w`: scan hex digits,
stop at the first non-hex character, and stop (with an overflow diagnostic)
after `w/4` digits. -/
def atoh (w : Nat) (s : List Char) : Nat × Bool := atohGo w (w / 4) 0 s

/-- Model of `sscanf(buf, "%x", &v)`: value of the maximal hex prefix of
the buffer (zero when the buffer starts with a non-hex character). -/
def hexVal : Nat → List Char → Nat
  | v, [] => v
  | v, c :: rest =>
    match hexDigit? c with
    | none => v
    | some d => hexVal (v * 16 + d) rest

/-- Uppercase hex digit character for a value below 16, as produced by
`printf` with `%X`. -/
def hexCharU (d : Nat) : Char :=
  if d < 10 then Char.ofNat (48 + d) else Char.ofNat (55 + d)

/-- Worker for `hexRev`, structurally recursive on a fuel bound (any fuel
above `n` yields the same digits, see `hexRevAux_congr`). -/
def hexRevAux : Nat → Nat → List Char
  | _, 0 => []
  | n, fuel + 1 =>
    if n < 16 then [hexCharU n]
    else hexCharU (n % 16) :: hexRevAux (n / 16) fuel

/-- Hex digits of `n`, least significant first, uppercase. -/
def hexRev (n : Nat) : List Char := hexRevAux n (n + 1)

/-- Model of `sprintf(buf, "%06X", n)`: uppercase hex rendering of `n`,
zero-padded on the left to a minimum width of six characters (wider if `n`
needs more than six digits). -/
def render6X (n : Nat) : List Char :=
  List.replicate (6 - (hexRev n).reverse.length) '0' ++ (hexRev n).reverse

/-- Model of the leading-zero stripping loop over `tmp_address`: counts how
many of the first six characters are `'0'`, stopping at the first character
that is not (`for(i=0;i<6;i++) if (tmp_address[i]=='0') cnt++ else i=6`). -/
def leadZeros6 (s : List Char) : Nat :=
  ((s.take 6).takeWhile (fun c => c = '0')).length

/-- One emitted packet: the data the `out <<` statements of `buildIncFile`
write for one `_LEN` constant / array declaration pair.  `addrStr` is the
content of `tmp_address` when the packet header was produced; `suffix` is
the identifier suffix `tmp_address + offset_cnt` after leading-zero
stripping; `lenConst` is the value printed into `..._LEN = N;`; `wordByte`
is the word-count byte of the PPP header; `hdrByte` is the memory-space
selector byte (0xC5/0xC6/0xC4); `payload` lists the two-character pairs
printed as `,0xHH` items. -/
structure Packet where
  addrStr : List Char
  suffix : List Char
  lenConst : Int
  wordByte : Int
  hdrByte : Int
  payload : List (Char × Char)
deriving Repr, DecidableEq

/-- Open a fresh packet for the current `tmp_address` contents. -/
def mkPacket (addrStr : List Char) (lenC wordB hdr : Int) : Packet :=
  { addrStr := addrStr
    suffix := addrStr.drop (leadZeros6 addrStr)
    lenConst := lenC
    wordByte := wordB
    hdrByte := hdr
    payload := [] }

/-- State of the `do { ... } while (rec_len != 0)` loop in the S2 branch of
`buildIncFile`: `recLen` and `writeCnt` are the C `int` variables
`rec_len` and `write_cnt`; `offsetCnt` is the payload cursor `offset_cnt`;
`addrStr` is the `tmp_address` buffer; `cur` is the packet currently being
filled and `closed` the packets already terminated with `};`. -/
structure LoopState where
  recLen : Int
  writeCnt : Int
  offsetCnt : Nat
  addrStr : List Char
  cur : Packet
  closed : List Packet
deriving Repr, DecidableEq

/-- Character of the line buffer at an index: positions past the text hold
the NUL bytes left by `calloc`. -/
def bufAt (txt : List Char) (i : Nat) : Char := txt.getD i (Char.ofNat 0)

/-- One iteration of the loop body.  If the current packet still has room
(`write_cnt + 6 < pkt_size`) a payload byte (two characters) is appended
and `rec_len` decremented; otherwise the packet is closed, the continuation
address is computed (`sscanf` of `tmp_address`, plus `write_cnt / 3`),
`tmp_address` is re-rendered with `%06X`, and a new packet header is
emitted with its `_LEN` value and word-count byte. -/
def emitStep (pktSize : Int) (hdr : Int) (txt : List Char) (s : LoopState) :
    LoopState :=
  if s.writeCnt + 6 < pktSize then
    { s with
      writeCnt := s.writeCnt + 1
      cur := { s.cur with
        payload := s.cur.payload ++
          [(bufAt txt s.offsetCnt, bufAt txt (s.offsetCnt + 1))] }
      offsetCnt := s.offsetCnt + 2
      recLen := s.recLen - 1 }
  else
    let newAddress : Int := (hexVal 0 s.addrStr : Int) + s.writeCnt.tdiv 3
    let addrStr' := render6X newAddress.toNat
    let lenC := if s.recLen + 6 ≤ pktSize then s.recLen + 6 else pktSize
    let wordB := if s.recLen + 6 < pktSize then s.recLen.tdiv 3
      else (pktSize - 6).tdiv 3
    { s with
      writeCnt := 0
      addrStr := addrStr'
      closed := s.closed ++ [s.cur]
      cur := mkPacket addrStr' lenC wordB hdr }

/-- The `do { body } while (rec_len != 0)` loop, with explicit fuel: the
body runs at least once, and the exit test is evaluated after the body.
`none` means the fuel ran out before the loop exited. -/
def emitLoop (pktSize hdr : Int) (txt : List Char) :
    Nat → LoopState → Option LoopState
  | 0, _ => none
  | fuel + 1, s =>
    let s' := emitStep pktSize hdr txt s
    if s'.recLen = 0 then some s' else emitLoop pktSize hdr txt fuel s'

/-- Result of emitting one S2 record. -/
inductive EmitResult where
  | unknownSpace : EmitResult
  | diverged : EmitResult
  | ok : List Packet → EmitResult
deriving Repr, DecidableEq

/-- PPP header byte selected by the memory-space if-chains of
`buildIncFile`: Y (2) gives 0xC6, X (1) gives 0xC5, P (4) gives 0xC4. -/
def initHdr (memSpace : Nat) : Int :=
  if memSpace = 2 then 0xC6 else if memSpace = 1 then 0xC5 else 0xC4

/-- Loop state at entry of the write loop, after the first packet header
has been emitted: `rec_len` has had the 4 address/checksum bytes removed,
`write_cnt` and `offset_cnt` are zero, and the first packet carries the
`_LEN` value and word-count byte computed with the `<=` tie-break of the
pre-loop code (lines 277 and 329 of the source). -/
def initState (memSpace : Nat) (pktSize recLenField : Int)
    (addrStr : List Char) : LoopState :=
  { recLen := recLenField - 4
    writeCnt := 0
    offsetCnt := 0
    addrStr := addrStr
    cur := mkPacket addrStr
      (if recLenField - 4 + 6 ≤ pktSize then recLenField - 4 + 6
        else pktSize)
      (if recLenField - 4 + 6 ≤ pktSize then (recLenField - 4).tdiv 3
        else (pktSize - 6).tdiv 3)
      (initHdr memSpace)
    closed := [] }

/-- The S2 branch of `buildIncFile` after field extraction: `recLenField`
is the decoded record-length byte, `addrStr` the six characters copied into
`tmp_address`, `txt` the payload text following the address.  An unknown
memory space (`mem_space` not 1, 2 or 4) fails before anything of the
record is written; otherwise the first packet header is emitted and the
write loop runs until `rec_len` reaches zero. -/
def emitRecord (fuel : Nat) (memSpace : Nat) (pktSize : Int)
    (recLenField : Int) (addrStr txt : List Char) : EmitResult :=
  if memSpace = 2 ∨ memSpace = 1 ∨ memSpace = 4 then
    match emitLoop pktSize (initHdr memSpace) txt fuel
        (initState memSpace pktSize recLenField addrStr) with
    | some fin => EmitResult.ok (fin.closed ++ [fin.cur])
    | none => EmitResult.diverged
  else EmitResult.unknownSpace

/-- Emission of an S2 line: the record length is `sscanf`ed from the two
characters at offset 2, the address is the six characters at offset 4, and
the payload text starts at offset 10 (`line += 4` then `line += 6`). -/
def emitS2 (fuel : Nat) (memSpace : Nat) (pktSize : Int)
    (line : List Char) : EmitResult :=
  emitRecord fuel memSpace pktSize
    ((hexVal 0 ((line.drop 2).take 2) : Int))
    ((line.drop 4).take 6) (line.drop 10)

/-- Total payload bytes across a packet list. -/
def payloadSum (ps : List Packet) : Nat :=
  (ps.map (fun p => p.payload.length)).sum

/-- The packet at an index of an emission (a dummy empty packet past the
end). -/
def packetAt (ps : List Packet) (i : Nat) : Packet :=
  ps.getD i (mkPacket [] 0 0 0)

/-- Outcome of a whole conversion run: the packets written to the output
(in order), and whether the run was aborted by the fatal
unknown-memory-space error (`buildIncFile` returning -1 mid-file, leaving
the packets already written in place). -/
structure RunResult where
  packets : List Packet
  aborted : Bool
deriving Repr, DecidableEq

/-- The record-classification loop of `buildIncFile`: each line is
classified by its two-character prefix.  `S0` updates `mem_space` from the
two characters at offset 6 (`sscanf("%x")` leaves `mem_space` unchanged
when those characters do not start with a hex digit); `S2` runs the packet
emitter; `S8` and any unsupported record reset `mem_space` to 0.  `none`
models the emission loop diverging (fuel exhausted). -/
def runLines (pktSize : Int) (fuel : Nat) :
    Nat → List (List Char) → Option RunResult
  | _, [] => some { packets := [], aborted := false }
  | memSpace, line :: rest =>
    if line.take 2 = ['S', '0'] then
      let t := (line.drop 6).take 2
      let memSpace' :=
        match t with
        | [] => memSpace
        | c :: _ => if (hexDigit? c).isSome then hexVal 0 t else memSpace
      runLines pktSize fuel memSpace' rest
    else if line.take 2 = ['S', '2'] then
      match emitS2 fuel memSpace pktSize line with
      | EmitResult.unknownSpace => some { packets := [], aborted := true }
      | EmitResult.diverged => none
      | EmitResult.ok ps =>
        (runLines pktSize fuel memSpace rest).map
          (fun r => { packets := ps ++ r.packets, aborted := r.aborted })
    else
      runLines pktSize fuel 0 rest

/-- Two's-complement reinterpretation of `atoh<uint32_t>`'s result as the
`int32_t` variable `packet_size`. -/
def toInt32 (n : Nat) : Int :=
  if n % 2 ^ 32 < 2 ^ 31 then (n % 2 ^ 32 : Nat)
  else (n % 2 ^ 32 : Nat) - 2 ^ 32

/-- The `-N` flag handler in `main`: the flag text is decoded with
`atoh<uint32_t>` (hexadecimal), stored into the `int32_t` `packet_size`,
replaced by the default 18 when not divisible by 3 (with a warning), and
replaced by 18 when below the minimum of 9. -/
def processNFlag (s : List Char) : Int :=
  let v := toInt32 (atoh 32 s).1
  if ¬ v.tmod 3 = 0 then 18
  else if v < 9 then 18
  else v

/-- The `packet_size` value `main` passes to `buildIncFile`: the default 18
when no `-N` flag is given, otherwise the validated flag value. -/
def mainPktSize (nArg : Option (List Char)) : Int :=
  match nArg with
  | none => 18
  | some s => processNFlag s

/-- Whole-program model: `main` validates the flags, runs `buildIncFile`
over the input lines with the validated packet size, ignores
`buildIncFile`'s return value (line 149 of the source discards it), and
returns 0.  The result pairs the conversion outcome with the process exit
status. -/
def mainModel (nArg : Option (List Char)) (lines : List (List Char))
    (fuel : Nat) : Option (RunResult × Int) :=
  (runLines (mainPktSize nArg) fuel 0 lines).map (fun r => (r, 0))

/-- Rendered addresses of the packets of an emission result: the numeric
value denoted by the six address characters each packet header prints. -/
def packetAddrVals (r : EmitResult) : List Nat :=
  match r with
  | EmitResult.ok ps => ps.map (fun p => hexVal 0 (p.addrStr.take 6))
  | _ => []

/-- Word counts (payload bytes over three) of the packets of an emission
result. -/
def packetWordCounts (r : EmitResult) : List Nat :=
  match r with
  | EmitResult.ok ps => ps.map (fun p => p.payload.length / 3)
  | _ => []

/-- The three lines of the spec's end-to-end scenario 1. -/
def scenario1 : List (List Char) :=
  ["S0030000FC".toList, "S21500123400010203040506070809A1".toList,
    "S804000000FB".toList]

/-- An S2 data record line with no preceding S0 memory-space switch. -/
def orphanS2Line : List Char := "S2050000000000".toList

/-- The record's emission loop finishes, for some amount of fuel, with a
packet list. -/
def emitCompletes (memSpace : Nat) (pktSize recLenField : Int)
    (addrStr txt : List Char) : Prop :=
  ∃ fuel ps,
    emitRecord fuel memSpace pktSize recLenField addrStr txt =
      EmitResult.ok ps

/-- The record's emission loop runs forever: whatever fuel is supplied, the
loop has not exited. -/
def emitAlwaysDiverges (memSpace : Nat) (pktSize recLenField : Int)
    (addrStr txt : List Char) : Prop :=
  ∀ fuel,
    emitRecord fuel memSpace pktSize recLenField addrStr txt =
      EmitResult.diverged

/-- The record's emission never produces a finished packet list, whatever
fuel is supplied. -/
def emitNeverCompletes (memSpace : Nat) (pktSize recLenField : Int)
    (addrStr txt : List Char) : Prop :=
  ∀ fuel ps,
    ¬ emitRecord fuel memSpace pktSize recLenField addrStr txt =
        EmitResult.ok ps

theorem hexDigit?_lt_16 {c : Char} {d : Nat} (h : hexDigit? c = some d) :
    d < 16 := by
  simp only [hexDigit?] at h
  split at h
  · cases h; omega
  · split at h
    · cases h; omega
    · split at h
      · cases h; omega
      · cases h

/-- Characterization of the `atoh` worker: starting from accumulator `v`
with `bail` digits of headroom left (and enough width that no reduction
modulo `2^w` ever truncates), the worker folds exactly the first `bail`
digits of the maximal hex run, and reports overflow exactly when the hex
run is longer than `bail`. -/
theorem atohGo_characterization (w : Nat) :
    ∀ (s : List Char) (bail v : Nat), (v + 1) * 16 ^ bail ≤ 2 ^ w →
      atohGo w bail v s =
        (digitsVal v ((hexRun s).take bail),
          decide (bail < (hexRun s).length)) := by
  intro s
  induction s with
  | nil => intro bail v _; simp [atohGo, hexRun, digitsVal]
  | cons c rest ih =>
    intro bail v hv
    rw [atohGo]
    cases hd : hexDigit? c with
    | none =>
      have hc : isHexDigit c = false := by simp [isHexDigit, hd]
      simp [hexRun, List.takeWhile_cons, hc, digitsVal]
    | some d =>
      have hc : isHexDigit c = true := by simp [isHexDigit, hd]
      have hrun : hexRun (c :: rest) = c :: hexRun rest := by
        simp [hexRun, List.takeWhile_cons, hc]
      cases bail with
      | zero => simp [hrun, digitsVal]
      | succ b =>
        have hd16 : d < 16 := hexDigit?_lt_16 hd
        have hmod : (v * 16 + d) % 2 ^ w = v * 16 + d := by
          apply Nat.mod_eq_of_lt
          have h1 : (v * 16 + d) + 1 ≤ (v + 1) * 16 := by omega
          have h2 : ((v * 16 + d) + 1) * 16 ^ b ≤ ((v + 1) * 16) * 16 ^ b :=
            Nat.mul_le_mul_right _ h1
          have h3 : ((v + 1) * 16) * 16 ^ b = (v + 1) * 16 ^ (b + 1) := by
            rw [Nat.pow_succ]; ring
          have h4 : ((v * 16 + d) + 1) * 16 ^ b ≤ 2 ^ w := by
            rw [← h3] at hv; omega
          have h5 : (v * 16 + d) + 1 ≤ ((v * 16 + d) + 1) * 16 ^ b := by
            have h6 : 1 ≤ 16 ^ b := Nat.one_le_pow _ _ (by omega)
            calc (v * 16 + d) + 1 = ((v * 16 + d) + 1) * 1 := by ring
              _ ≤ ((v * 16 + d) + 1) * 16 ^ b := Nat.mul_le_mul_left _ h6
          omega
        have hnext : ((v * 16 + d) + 1) * 16 ^ b ≤ 2 ^ w := by
          have h1 : (v * 16 + d) + 1 ≤ (v + 1) * 16 := by omega
          have h2 : ((v * 16 + d) + 1) * 16 ^ b ≤ ((v + 1) * 16) * 16 ^ b :=
            Nat.mul_le_mul_right _ h1
          have h3 : ((v + 1) * 16) * 16 ^ b = (v + 1) * 16 ^ (b + 1) := by
            rw [Nat.pow_succ]; ring
          omega
        simp only [if_neg (Nat.succ_ne_zero b), Nat.succ_sub_one, hmod]
        rw [ih b (v * 16 + d) hnext, hrun]
        simp [digitsVal, hd, Nat.succ_lt_succ_iff]

theorem atoh_characterization (w : Nat) (s : List Char) :
    atoh w s =
      (digitsVal 0 ((hexRun s).take (w / 4)),
        decide (w / 4 < (hexRun s).length)) := by
  have h16 : (16 : Nat) = 2 ^ 4 := by norm_num
  have hpow : (0 + 1) * 16 ^ (w / 4) ≤ 2 ^ w := by
    rw [Nat.one_mul, h16, ← Nat.pow_mul]
    exact Nat.pow_le_pow_right (by omega) (by omega)
  exact atohGo_characterization w s (w / 4) 0 hpow


theorem hexDigit?_hexCharU {d : Nat} (h : d < 16) :
    hexDigit? (hexCharU d) = some d := by
  interval_cases d <;> decide

theorem hexRevAux_congr :
    ∀ (f₁ : Nat), ∀ f₂ n, n < f₁ → n < f₂ →
      hexRevAux n f₁ = hexRevAux n f₂ := by
  intro f₁
  induction f₁ with
  | zero => intro f₂ n h₁ _; omega
  | succ g₁ ih =>
    intro f₂ n h₁ h₂
    cases f₂ with
    | zero => omega
    | succ g₂ =>
      rw [hexRevAux, hexRevAux]
      split
      · rfl
      · have hlt : n / 16 < n := Nat.div_lt_self (by omega) (by omega)
        rw [ih g₂ (n / 16) (by omega) (by omega)]

/-- Unfolding equation for `hexRev`, recovering the natural recursion on
`n`. -/
theorem hexRev_eq (n : Nat) :
    hexRev n =
      if n < 16 then [hexCharU n]
      else hexCharU (n % 16) :: hexRev (n / 16) := by
  show hexRevAux n (n + 1) = _
  rw [hexRevAux]
  split
  · rfl
  · have hlt : n / 16 < n := Nat.div_lt_self (by omega) (by omega)
    rw [hexRevAux_congr n (n / 16 + 1) (n / 16) (by omega) (by omega)]
    rfl

theorem hexRev_all_hex (n : Nat) : ∀ c ∈ hexRev n, isHexDigit c = true := by
  induction n using Nat.strong_induction_on with
  | _ n ih =>
    rw [hexRev_eq]
    split
    · intro c hc
      simp only [List.mem_singleton] at hc
      subst hc
      simp [isHexDigit, hexDigit?_hexCharU ‹n < 16›]
    · intro c hc
      rcases List.mem_cons.mp hc with h | h
      · subst h
        simp [isHexDigit, hexDigit?_hexCharU (Nat.mod_lt _ (by omega))]
      · exact ih (n / 16) (Nat.div_lt_self (by omega) (by omega)) c h

theorem digitsVal_append (v : Nat) (l₁ l₂ : List Char) :
    digitsVal v (l₁ ++ l₂) = digitsVal (digitsVal v l₁) l₂ := by
  simp [digitsVal, List.foldl_append]

theorem digitsVal_hexRev_reverse (n : Nat) :
    ∀ v, digitsVal v (hexRev n).reverse = v * 16 ^ (hexRev n).length + n := by
  induction n using Nat.strong_induction_on with
  | _ n ih =>
    intro v
    rw [hexRev_eq]
    split
    · simp [digitsVal, hexDigit?_hexCharU ‹n < 16›]
    · rw [List.reverse_cons, digitsVal_append]
      have hlt : n / 16 < n := Nat.div_lt_self (by omega) (by omega)
      rw [ih (n / 16) hlt v]
      have hm : n % 16 < 16 := Nat.mod_lt _ (by omega)
      simp only [digitsVal, List.foldl_cons, List.foldl_nil,
        hexDigit?_hexCharU hm, Option.getD_some, List.length_cons]
      have : (v * 16 ^ (hexRev (n / 16)).length + n / 16) * 16 + n % 16 =
          v * 16 ^ ((hexRev (n / 16)).length + 1) + (16 * (n / 16) + n % 16) := by
        rw [Nat.pow_succ]; ring
      rw [this, Nat.div_add_mod n 16]

theorem hexVal_eq_digitsVal :
    ∀ (l : List Char) (v : Nat), (∀ c ∈ l, isHexDigit c = true) →
      hexVal v l = digitsVal v l := by
  intro l
  induction l with
  | nil => intro v _; simp [hexVal, digitsVal]
  | cons c rest ih =>
    intro v hall
    have hc : isHexDigit c = true := hall c (List.mem_cons_self _ _)
    simp only [isHexDigit, Option.isSome_iff_exists] at hc
    obtain ⟨d, hd⟩ := hc
    rw [hexVal, hd, digitsVal]
    simp only [List.foldl_cons, hd, Option.getD_some]
    exact ih _ (fun c' hc' => hall c' (List.mem_cons_of_mem _ hc'))

theorem render6X_all_hex (n : Nat) :
    ∀ c ∈ render6X n, isHexDigit c = true := by
  intro c hc
  rcases List.mem_append.mp hc with h | h
  · have := List.eq_of_mem_replicate h
    subst this; decide
  · exact hexRev_all_hex n c (List.mem_reverse.mp h)

theorem digitsVal_replicate_zero (k : Nat) :
    digitsVal 0 (List.replicate k '0') = 0 := by
  induction k with
  | zero => simp [digitsVal]
  | succ m ih =>
    rw [List.replicate_succ]
    simpa [digitsVal] using ih

/-- Round trip: parsing the `%06X` rendering with `sscanf("%x")` recovers
the value. -/
theorem hexVal_render6X (n : Nat) : hexVal 0 (render6X n) = n := by
  rw [hexVal_eq_digitsVal _ _ (render6X_all_hex n), render6X,
    digitsVal_append, digitsVal_replicate_zero, digitsVal_hexRev_reverse]
  simp

theorem hexRev_length_le (k : Nat) :
    ∀ n, n < 16 ^ (k + 1) → (hexRev n).length ≤ k + 1 := by
  induction k with
  | zero =>
    intro n h
    rw [hexRev_eq]
    split
    · simp
    · simp at h
      omega
  | succ m ih =>
    intro n h
    rw [hexRev_eq]
    split
    · simp
    · simp only [List.length_cons]
      have hdiv : n / 16 < 16 ^ (m + 1) := by
        rw [Nat.div_lt_iff_lt_mul (by omega)]
        calc n < 16 ^ (m + 1 + 1) := h
          _ = 16 ^ (m + 1) * 16 := by rw [Nat.pow_succ]
      have := ih (n / 16) hdiv
      omega

theorem render6X_length (n : Nat) (h : n < 16 ^ 6) :
    (render6X n).length = 6 := by
  have h1 : (hexRev n).length ≤ 6 := hexRev_length_le 5 n h
  simp only [render6X, List.length_append, List.length_replicate,
    List.length_reverse]
  omega

theorem mkPacket_fields (addrStr : List Char) (lenC wordB hdr : Int) :
    (mkPacket addrStr lenC wordB hdr).addrStr = addrStr ∧
    (mkPacket addrStr lenC wordB hdr).suffix =
      addrStr.drop (leadZeros6 addrStr) ∧
    (mkPacket addrStr lenC wordB hdr).payload = [] := by
  refine ⟨rfl, rfl, rfl⟩

theorem emitStep_write_fields (P hdr : Int) (txt : List Char) (s : LoopState)
    (hw : s.writeCnt + 6 < P) :
    (emitStep P hdr txt s).recLen = s.recLen - 1 ∧
    (emitStep P hdr txt s).writeCnt = s.writeCnt + 1 ∧
    (emitStep P hdr txt s).closed = s.closed ∧
    (emitStep P hdr txt s).addrStr = s.addrStr ∧
    (emitStep P hdr txt s).cur.addrStr = s.cur.addrStr ∧
    (emitStep P hdr txt s).cur.suffix = s.cur.suffix ∧
    (emitStep P hdr txt s).cur.payload.length = s.cur.payload.length + 1 := by
  simp [emitStep, hw]

theorem emitStep_header_fields (P hdr : Int) (txt : List Char)
    (s : LoopState) (hw : ¬ s.writeCnt + 6 < P) :
    (emitStep P hdr txt s).recLen = s.recLen ∧
    (emitStep P hdr txt s).writeCnt = 0 ∧
    (emitStep P hdr txt s).closed = s.closed ++ [s.cur] ∧
    (emitStep P hdr txt s).addrStr =
      render6X ((hexVal 0 s.addrStr : Int) + s.writeCnt.tdiv 3).toNat ∧
    (emitStep P hdr txt s).cur =
      mkPacket (render6X ((hexVal 0 s.addrStr : Int) + s.writeCnt.tdiv 3).toNat)
        (if s.recLen + 6 ≤ P then s.recLen + 6 else P)
        (if s.recLen + 6 < P then s.recLen.tdiv 3 else (P - 6).tdiv 3)
        hdr := by
  simp [emitStep, hw]

/-- Termination of the emission loop: with a positive remaining count, a
well-formed write counter and a packet size of at least 7, the loop exits
within `2 * recLen (+1)` iterations. -/
theorem emitLoop_isSome (P hdr : Int) (txt : List Char) (hP : 7 ≤ P) :
    ∀ (n : Nat) (s : LoopState), 0 ≤ s.writeCnt → s.writeCnt + 6 ≤ P →
      1 ≤ s.recLen →
      (2 * s.recLen).toNat + (if s.writeCnt + 6 < P then 0 else 1) ≤ n →
      (emitLoop P hdr txt n s).isSome := by
  intro n
  induction n with
  | zero =>
    intro s h0 h6 h1 hμ
    split at hμ <;> omega
  | succ m ih =>
    intro s h0 h6 h1 hμ
    rw [emitLoop]
    by_cases hw : s.writeCnt + 6 < P
    · obtain ⟨hrl, hwc, _, _, _, _, _⟩ := emitStep_write_fields P hdr txt s hw
      by_cases hz : (emitStep P hdr txt s).recLen = 0
      · simp [hz]
      · rw [if_neg hz]
        apply ih (emitStep P hdr txt s) (by omega) (by omega) (by omega)
        rw [if_pos hw] at hμ
        rw [hrl, hwc]
        split <;> omega
    · obtain ⟨hrl, hwc, _, _, _⟩ := emitStep_header_fields P hdr txt s hw
      by_cases hz : (emitStep P hdr txt s).recLen = 0
      · simp [hz]
      · rw [if_neg hz]
        apply ih (emitStep P hdr txt s) (by omega) (by omega) (by omega)
        rw [if_neg hw] at hμ
        rw [hrl, hwc]
        split <;> omega

/-- Divergence of the emission loop: once the remaining count is negative —
or zero while the write branch is the one about to run — the exit test
`rec_len != 0` never succeeds again, whatever the fuel. -/
theorem emitLoop_none_of_nonpos (P hdr : Int) (txt : List Char) :
    ∀ (fuel : Nat) (s : LoopState),
      (s.recLen < 0 ∨ (s.recLen = 0 ∧ s.writeCnt + 6 < P)) →
      emitLoop P hdr txt fuel s = none := by
  intro fuel
  induction fuel with
  | zero => intro s _; rfl
  | succ m ih =>
    intro s hs
    rw [emitLoop]
    by_cases hw : s.writeCnt + 6 < P
    · obtain ⟨hrl, hwc, _, _, _, _, _⟩ := emitStep_write_fields P hdr txt s hw
      have hz : ¬ (emitStep P hdr txt s).recLen = 0 := by omega
      rw [if_neg hz]
      exact ih _ (Or.inl (by omega))
    · obtain ⟨hrl, hwc, _, _, _⟩ := emitStep_header_fields P hdr txt s hw
      have hneg : s.recLen < 0 := by
        rcases hs with h | ⟨_, h⟩
        · exact h
        · exact absurd h hw
      have hz : ¬ (emitStep P hdr txt s).recLen = 0 := by omega
      rw [if_neg hz]
      exact ih _ (Or.inl (by omega))

theorem payloadSum_append_single (l : List Packet) (p : Packet) :
    payloadSum (l ++ [p]) = payloadSum l + p.payload.length := by
  simp [payloadSum]

theorem payloadSum_const_int (d : Int) :
    ∀ l : List Packet, (∀ p ∈ l, (p.payload.length : Int) = d) →
      (payloadSum l : Int) = l.length * d := by
  intro l
  induction l with
  | nil => intro _; simp [payloadSum]
  | cons p rest ih =>
    intro h
    have hp : (p.payload.length : Int) = d := h p (List.mem_cons_self _ _)
    have hrest := ih (fun q hq => h q (List.mem_cons_of_mem _ hq))
    simp only [payloadSum, List.map_cons, List.sum_cons, List.length_cons]
    push_cast
    simp only [payloadSum] at hrest
    push_cast at hrest
    rw [hrest, hp]
    ring

/-- Run of the emission loop, control part: from a state satisfying the
write-counter, byte-conservation and closed-packet-size invariants (with
`L` total payload bytes), the loop exits in a state whose current packet
holds between 1 and `pkt_size - 6` bytes, whose closed packets hold exactly
`pkt_size - 6` bytes each, and whose packets hold `L` bytes in total. -/
theorem emitLoop_run_control (P hdr : Int) (txt : List Char) (L : Nat) :
    ∀ (fuel : Nat) (s fin : LoopState),
      emitLoop P hdr txt fuel s = some fin →
      0 ≤ s.writeCnt → s.writeCnt + 6 ≤ P → 1 ≤ s.recLen →
      (s.cur.payload.length : Int) = s.writeCnt →
      (∀ p ∈ s.closed, (p.payload.length : Int) = P - 6) →
      s.recLen + s.writeCnt + (payloadSum s.closed : Int) = (L : Int) →
      1 ≤ fin.writeCnt ∧ fin.writeCnt + 6 ≤ P ∧
        (fin.cur.payload.length : Int) = fin.writeCnt ∧
        (∀ p ∈ fin.closed, (p.payload.length : Int) = P - 6) ∧
        fin.writeCnt + (payloadSum fin.closed : Int) = (L : Int) := by
  intro fuel
  induction fuel with
  | zero =>
    intro s fin hrun
    exact absurd hrun (by rw [emitLoop]; simp)
  | succ m ih =>
    intro s fin hrun h0 h6 h1 hcur hclosed hsum
    rw [emitLoop] at hrun
    by_cases hw : s.writeCnt + 6 < P
    · obtain ⟨hrl, hwc, hcl, _, _, _, hpl⟩ :=
        emitStep_write_fields P hdr txt s hw
      by_cases hz : (emitStep P hdr txt s).recLen = 0
      · rw [if_pos hz, Option.some_inj] at hrun
        subst hrun
        rw [hcl]
        refine ⟨by omega, by omega, by push_cast [hpl]; omega, hclosed, ?_⟩
        rw [hwc]
        omega
      · rw [if_neg hz] at hrun
        apply ih _ _ hrun (by omega) (by omega) (by omega)
          (by push_cast [hpl, hwc]; omega)
          (by rw [hcl]; exact hclosed)
          (by rw [hrl, hwc, hcl]; omega)
    · obtain ⟨hrl, hwc, hcl, _, hcur'⟩ :=
        emitStep_header_fields P hdr txt s hw
      by_cases hz : (emitStep P hdr txt s).recLen = 0
      · rw [hrl] at hz
        omega
      · rw [if_neg hz] at hrun
        have hfull : s.writeCnt = P - 6 := by omega
        apply ih _ _ hrun (by omega) (by omega) (by omega)
          (by rw [hcur']; simp [mkPacket]; omega)
          ?_ ?_
        · rw [hcl]
          intro p hp
          rcases List.mem_append.mp hp with h | h
          · exact hclosed p h
          · rw [List.mem_singleton.mp h, hcur, hfull]
        · rw [hrl, hwc, hcl, payloadSum_append_single]
          push_cast
          omega

/-- Run of the emission loop, address part: when the `tmp_address` buffer
holds the `%06X` rendering of `a + k*wpp` (with `k` packets closed and
`wpp` the per-packet word count `(pkt_size - 6) / 3`), every packet of the
final state renders address `a + j*wpp` for its index `j`, and every
packet's identifier suffix is its address string with the leading zeros
the stripping loop removes. -/
theorem emitLoop_run_addr (P hdr : Int) (txt : List Char) (a wpp : Nat)
    (hwpp : (P - 6).tdiv 3 = (wpp : Int)) :
    ∀ (fuel : Nat) (s fin : LoopState),
      emitLoop P hdr txt fuel s = some fin →
      0 ≤ s.writeCnt → s.writeCnt + 6 ≤ P → 1 ≤ s.recLen →
      s.addrStr = render6X (a + s.closed.length * wpp) →
      s.cur.addrStr = s.addrStr →
      ((s.closed ++ [s.cur]).map Packet.addrStr =
        (List.range (s.closed.length + 1)).map
          (fun j => render6X (a + j * wpp))) →
      (∀ p ∈ s.closed ++ [s.cur],
        p.suffix = p.addrStr.drop (leadZeros6 p.addrStr)) →
      ((fin.closed ++ [fin.cur]).map Packet.addrStr =
        (List.range (fin.closed.length + 1)).map
          (fun j => render6X (a + j * wpp))) ∧
      (∀ p ∈ fin.closed ++ [fin.cur],
        p.suffix = p.addrStr.drop (leadZeros6 p.addrStr)) := by
  intro fuel
  induction fuel with
  | zero =>
    intro s fin hrun
    exact absurd hrun (by rw [emitLoop]; simp)
  | succ m ih =>
    intro s fin hrun h0 h6 h1 haddr hcad hmap hsuf
    rw [emitLoop] at hrun
    by_cases hw : s.writeCnt + 6 < P
    · obtain ⟨hrl, hwc, hcl, had, hca, hcs, _⟩ :=
        emitStep_write_fields P hdr txt s hw
      have hmap' : ((emitStep P hdr txt s).closed ++
            [(emitStep P hdr txt s).cur]).map Packet.addrStr =
          (List.range ((emitStep P hdr txt s).closed.length + 1)).map
            (fun j => render6X (a + j * wpp)) := by
        rw [hcl, List.map_append]
        have h1 : List.map Packet.addrStr [(emitStep P hdr txt s).cur] =
            List.map Packet.addrStr [s.cur] := by simp [hca]
        rw [h1, ← List.map_append, hmap]
      have hsuf' : ∀ p ∈ (emitStep P hdr txt s).closed ++
          [(emitStep P hdr txt s).cur],
          p.suffix = p.addrStr.drop (leadZeros6 p.addrStr) := by
        rw [hcl]
        intro p hp
        rcases List.mem_append.mp hp with h | h
        · exact hsuf p (List.mem_append_left _ h)
        · rw [List.mem_singleton.mp h, hca, hcs]
          exact hsuf s.cur (List.mem_append_right _ (List.mem_singleton_self _))
      by_cases hz : (emitStep P hdr txt s).recLen = 0
      · rw [if_pos hz, Option.some_inj] at hrun
        subst hrun
        exact ⟨hmap', hsuf'⟩
      · rw [if_neg hz] at hrun
        apply ih _ _ hrun (by omega) (by omega) (by omega)
          (by rw [had, hcl]; exact haddr) (by rw [hca, had]; exact hcad)
          hmap' hsuf'
    · obtain ⟨hrl, hwc, hcl, had, hcur'⟩ :=
        emitStep_header_fields P hdr txt s hw
      by_cases hz : (emitStep P hdr txt s).recLen = 0
      · omega
      · rw [if_neg hz] at hrun
        have hfull : s.writeCnt = P - 6 := by omega
        have hnew : ((hexVal 0 s.addrStr : Int) + s.writeCnt.tdiv 3).toNat =
            a + (s.closed.length + 1) * wpp := by
          rw [haddr, hexVal_render6X, hfull, hwpp]
          have hc : ((a + s.closed.length * wpp : Nat) : Int) + (wpp : Nat) =
              ((a + (s.closed.length + 1) * wpp : Nat) : Int) := by
            push_cast; ring
          rw [hc, Int.toNat_natCast]
        apply ih _ _ hrun (by omega) (by omega) (by omega) ?_ ?_ ?_ ?_
        · rw [had, hnew, hcl]
          simp [List.length_append]
        · rw [hcur', had]
          rfl
        · rw [hcl, hcur', List.length_append, List.map_append]
          simp only [List.length_singleton]
          rw [hmap]
          simp [List.range_succ, List.map_append, mkPacket, hnew]
        · rw [hcl, hcur']
          intro p hp
          rcases List.mem_append.mp hp with h | h
          · exact hsuf p h
          · rw [List.mem_singleton.mp h]
            simp [mkPacket]

theorem initState_fields (memSpace : Nat) (P rl : Int) (addr : List Char) :
    (initState memSpace P rl addr).recLen = rl - 4 ∧
    (initState memSpace P rl addr).writeCnt = 0 ∧
    (initState memSpace P rl addr).closed = [] ∧
    (initState memSpace P rl addr).addrStr = addr ∧
    (initState memSpace P rl addr).cur.addrStr = addr ∧
    (initState memSpace P rl addr).cur.suffix =
      addr.drop (leadZeros6 addr) ∧
    (initState memSpace P rl addr).cur.payload = [] := by
  refine ⟨rfl, rfl, rfl, rfl, rfl, rfl, rfl⟩

/-- For a known memory space, `emitRecord` is the match on the loop run
from the initial state. -/
theorem emitRecord_of_known (fuel : Nat) (memSpace : Nat)
    (hmem : memSpace = 2 ∨ memSpace = 1 ∨ memSpace = 4)
    (P rl : Int) (addr txt : List Char) :
    emitRecord fuel memSpace P rl addr txt =
      (match emitLoop P (initHdr memSpace) txt fuel
          (initState memSpace P rl addr) with
        | some fin => EmitResult.ok (fin.closed ++ [fin.cur])
        | none => EmitResult.diverged) := by
  rw [emitRecord, if_pos hmem]

/-- Ceiling-division characterization of the packet count: `k` full packets
of `d` bytes plus a final packet of `c` bytes (`1 ≤ c ≤ d`). -/
theorem packet_count_formula (L d k c : Nat) (hd : 1 ≤ d) (hc1 : 1 ≤ c)
    (hcd : c ≤ d) (hL : k * d + c = L) :
    k + 1 = if L ≤ d then 1 else (L + d - 1) / d := by
  split
  · rename_i hLd
    have hk : k = 0 := by
      by_contra hk0
      have h1 : 1 ≤ k := Nat.one_le_iff_ne_zero.mpr hk0
      have h2 : 1 * d ≤ k * d := Nat.mul_le_mul_right d h1
      omega
    omega
  · rename_i hLd
    have hub : (L + d - 1) / d < k + 2 := by
      rw [Nat.div_lt_iff_lt_mul (by omega)]
      have h2 : (k + 2) * d = k * d + 2 * d := by ring
      omega
    have hlb : k + 1 ≤ (L + d - 1) / d := by
      rw [Nat.le_div_iff_mul_le (by omega)]
      have h2 : (k + 1) * d = k * d + d := by ring
      omega
    omega

theorem drop_length_takeWhile (p : Char → Bool) :
    ∀ l : List Char, l.drop (l.takeWhile p).length = l.dropWhile p := by
  intro l
  induction l with
  | nil => rfl
  | cons c rest ih =>
    by_cases hc : p c
    · simp [List.takeWhile_cons, List.dropWhile_cons, hc, ih]
    · simp [List.takeWhile_cons, List.dropWhile_cons, hc]

/-- The character-counting strip of the C source coincides with
`dropWhile` on address strings of at most six characters. -/
theorem drop_leadZeros6_eq_dropWhile (s : List Char) (h : s.length ≤ 6) :
    s.drop (leadZeros6 s) = s.dropWhile (fun c => c = '0') := by
  rw [leadZeros6, List.take_of_length_le h]
  exact drop_length_takeWhile _ s

/-- C6: for every input string and every width in 8/16/32/64, the hex
decoder `atoh` never fails: it scans hex digits left to right accumulating
`value*16 + digit`, stops at the first non-hex character returning the
value accumulated so far (zero for an empty or fully invalid string), and
when more hex digits are present than `width/4` it consumes only the first
`width/4` digits, returning their value and raising the non-fatal overflow
diagnostic. -/
theorem claim_C6 (w : Nat) (hw : w = 8 ∨ w = 16 ∨ w = 32 ∨ w = 64)
    (s : List Char) :
    (atoh w s).1 = digitsVal 0 ((hexRun s).take (w / 4)) ∧
    ((atoh w s).2 = true ↔ w / 4 < (hexRun s).length) := by
  have h := atoh_characterization w s
  refine ⟨?_, ?_⟩ <;> rw [h] <;> simp

theorem claim_C6_witness :
    ((8 : Nat) = 8 ∨ (8 : Nat) = 16 ∨ (8 : Nat) = 32 ∨ (8 : Nat) = 64) ∧
    ((atoh 8 "1A2B3C".toList).1 =
        digitsVal 0 ((hexRun "1A2B3C".toList).take (8 / 4)) ∧
      ((atoh 8 "1A2B3C".toList).2 = true ↔
        8 / 4 < (hexRun "1A2B3C".toList).length)) :=
  ⟨Or.inl rfl, claim_C6 8 (Or.inl rfl) "1A2B3C".toList⟩

/-- C10: the `-N` flag text is decoded as hexadecimal, not decimal: the
argument `18` yields `pkt_size = 24` (0x18) and `12` yields 18 (0x12); the
raw `atoh<uint32_t>` decode of `18` is already 24 before validation, so no
decimal reading is ever applied to the flag text. -/
theorem claim_C10 :
    processNFlag "18".toList = 24 ∧ processNFlag "12".toList = 18 ∧
      (atoh 32 "18".toList).1 = 24 := by
  refine ⟨?_, ?_, ?_⟩ <;> decide

/-- C8: whatever `-N` flag text is supplied (or none), the `packet_size`
value that `main` hands to `buildIncFile` is a multiple of 3 and at least
9, because a value not divisible by 3 — and a divisible one below 9 — is
replaced by the default 18 before any record is parsed. -/
theorem claim_C8 (nArg : Option (List Char)) :
    mainPktSize nArg % 3 = 0 ∧ 9 ≤ mainPktSize nArg := by
  cases nArg with
  | none => exact ⟨by decide, by decide⟩
  | some s =>
    simp only [mainPktSize, processNFlag]
    split
    · exact ⟨by decide, by decide⟩
    · split
      · exact ⟨by decide, by decide⟩
      · rename_i htm hlt
        set v := toInt32 (atoh 32 s).1 with hv
        have h9 : (9 : Int) ≤ v := by omega
        have h0 : (0 : Int) ≤ v := by omega
        have htm0 : v.tmod 3 = 0 := by
          by_contra hc
          exact htm hc
        rw [Int.tmod_eq_emod h0 (by norm_num)] at htm0
        exact ⟨htm0, h9⟩

theorem claim_C8_witness :
    mainPktSize (some "0C".toList) % 3 = 0 ∧
      9 ≤ mainPktSize (some "0C".toList) :=
  claim_C8 (some "0C".toList)

/-- C3: on an input whose first record is an S2 data record (no S0 switch
has set a memory space), the conversion aborts at that record with the
unknown-memory-space error and emits no packets — but `main` discards
`buildIncFile`'s -1 return value, so the modelled process exit status is 0,
not the non-zero status the claim requires. -/
theorem claim_C3 :
    mainModel none [orphanS2Line] 100 =
      some ({ packets := [], aborted := true }, 0) := by
  decide

/-- C4 counterexample: on the exact three-line input of the claim with
`pkt_size = 18`, the converter emits zero array declarations, not the one
claimed: the S0 line's memory-space field (characters at offset 6) reads
`00`, so the memory space is Unknown when the S2 record arrives and the
conversion aborts. -/
theorem claim_C4_cex :
    (runLines 18 100 0 scenario1).map (fun r => r.packets.length) =
      some 0 := by
  decide

/-- C4 (amended): on the claimed input the S0 record stores memory space 0
(its field at offset 6 is `00`, not the `02` the scenario intends), so the
S2 record is reached with an unknown memory space: the conversion aborts
there, emitting no length constant and no array at all. -/
theorem claim_C4 :
    hexVal 0 ((("S0030000FC".toList).drop 6).take 2) = 0 ∧
      runLines 18 100 0 scenario1 =
        some { packets := [], aborted := true } := by
  refine ⟨by decide, by decide⟩

/-- C2 counterexample: a two-packet record at address FFFFFF (payload six
bytes, `pkt_size = 9`, Y space) writes one word in its first packet, so the
claim requires the second packet to render address 0x1000000; but `%06X`
renders seven digits and the header prints only the first six characters,
so the rendered address is 0x100000. -/
theorem claim_C2_cex :
    packetAddrVals
        (emitRecord 100 2 9 10 (List.replicate 6 'F')
          "000102030405AB".toList) = [16777215, 1048576] ∧
      packetWordCounts
        (emitRecord 100 2 9 10 (List.replicate 6 'F')
          "000102030405AB".toList) = [1, 1] ∧
      ¬ (1048576 : Nat) = 16777215 + 1 := by
  refine ⟨by decide, by decide, by decide⟩

/-- C1: for every data record with payload length `L ≥ 1` and a known
memory space, emission with packet size `P` (a multiple of 3, `P ≥ 9`)
terminates, writes exactly `L` payload bytes in total, and emits
`ceil(L / (P - 6))` packets when `L > P - 6` and exactly one packet
otherwise. -/
theorem claim_C1 (mem : Nat) (hmem : mem = 2 ∨ mem = 1 ∨ mem = 4)
    (P L : Nat) (hP : 9 ≤ P) (hP3 : P % 3 = 0) (hL : 1 ≤ L)
    (addr txt : List Char) :
    ∃ fuel ps,
      emitRecord fuel mem (P : Int) ((L : Int) + 4) addr txt =
        EmitResult.ok ps ∧
      payloadSum ps = L ∧
      ps.length =
        (if L ≤ P - 6 then 1 else (L + (P - 6) - 1) / (P - 6)) := by
  have hP7 : (7 : Int) ≤ (P : Int) := by exact_mod_cast (by omega : 7 ≤ P)
  obtain ⟨hrl0, hwc0, hcl0, _, _, _, hpay0⟩ :=
    initState_fields mem (P : Int) ((L : Int) + 4) addr
  have hμ : (2 * (initState mem (P : Int) ((L : Int) + 4) addr).recLen).toNat
      + (if (initState mem (P : Int) ((L : Int) + 4) addr).writeCnt + 6 <
          (P : Int) then 0 else 1) ≤ 2 * L := by
    rw [hrl0, hwc0]
    split <;> omega
  have hsome := emitLoop_isSome (P : Int) (initHdr mem) txt hP7 (2 * L)
    (initState mem (P : Int) ((L : Int) + 4) addr)
    (by rw [hwc0]) (by rw [hwc0]; omega) (by rw [hrl0]; omega) hμ
  obtain ⟨fin, hfin⟩ := Option.isSome_iff_exists.mp hsome
  have hctrl := emitLoop_run_control (P : Int) (initHdr mem) txt L (2 * L)
    _ fin hfin (by rw [hwc0]) (by rw [hwc0]; omega) (by rw [hrl0]; omega)
    (by rw [hpay0, hwc0]; simp)
    (by rw [hcl0]; simp)
    (by rw [hrl0, hwc0, hcl0]; simp [payloadSum])
  obtain ⟨hw1, hw6, hcpl, hclosed, hcons⟩ := hctrl
  refine ⟨2 * L, fin.closed ++ [fin.cur], ?_, ?_, ?_⟩
  · rw [emitRecord_of_known _ _ hmem, hfin]
  · rw [payloadSum_append_single]
    omega
  · have hsumInt : (payloadSum fin.closed : Int) =
        (fin.closed.length : Int) * ((P : Int) - 6) :=
      payloadSum_const_int _ _ hclosed
    have hd6 : ((P - 6 : Nat) : Int) = (P : Int) - 6 := by
      push_cast [Nat.cast_sub (by omega : 6 ≤ P)]
      ring
    have hkNat : payloadSum fin.closed = fin.closed.length * (P - 6) := by
      have h := hsumInt
      rw [← hd6] at h
      exact_mod_cast h
    have hc1 : 1 ≤ fin.cur.payload.length := by omega
    have hcd : fin.cur.payload.length ≤ P - 6 := by omega
    have hLNat : fin.closed.length * (P - 6) + fin.cur.payload.length
        = L := by
      rw [← hkNat]
      omega
    have hcount := packet_count_formula L (P - 6) fin.closed.length
      fin.cur.payload.length (by omega) hc1 hcd hLNat
    simpa using hcount

theorem claim_C1_witness :
    ((2 : Nat) = 2 ∨ (2 : Nat) = 1 ∨ (2 : Nat) = 4) ∧ 9 ≤ (9 : Nat) ∧
      (9 : Nat) % 3 = 0 ∧ 1 ≤ (4 : Nat) ∧
      (∃ fuel ps,
        emitRecord fuel 2 ((9 : Nat) : Int) (((4 : Nat) : Int) + 4)
          "001234".toList "0001020304AB".toList = EmitResult.ok ps ∧
        payloadSum ps = 4 ∧
        ps.length =
          (if (4 : Nat) ≤ 9 - 6 then 1 else (4 + (9 - 6) - 1) / (9 - 6))) :=
  ⟨Or.inl rfl, by omega, by decide, by omega,
    claim_C1 2 (Or.inl rfl) 9 4 (by omega) (by decide) (by omega)
      "001234".toList "0001020304AB".toList⟩

/-- C9: with a validated packet size (`pkt_size ≥ 9`) and a known memory
space, the per-record emission loop terminates if and only if the record's
initial remaining payload count `byte_count - 4` is at least 1: the exit
test `rec_len != 0` runs only after a write-and-decrement, so the shallow
embedding completes exactly under that precondition. -/
theorem claim_C9 (mem : Nat) (hmem : mem = 2 ∨ mem = 1 ∨ mem = 4)
    (P : Nat) (hP : 9 ≤ P) (rl : Int) (addr txt : List Char) :
    emitCompletes mem (P : Int) rl addr txt ↔ 1 ≤ rl - 4 := by
  have hP7 : (7 : Int) ≤ (P : Int) := by exact_mod_cast (by omega : 7 ≤ P)
  obtain ⟨hrl0, hwc0, _, _, _, _, _⟩ :=
    initState_fields mem (P : Int) rl addr
  constructor
  · intro hcomp
    by_contra hneg
    obtain ⟨fuel, ps, hok⟩ := hcomp
    have hdiv : emitLoop (P : Int) (initHdr mem) txt fuel
        (initState mem (P : Int) rl addr) = none := by
      apply emitLoop_none_of_nonpos
      rw [hrl0, hwc0]
      omega
    rw [emitRecord_of_known _ _ hmem, hdiv] at hok
    exact absurd hok (by simp)
  · intro h1
    have hμ : (2 * (initState mem (P : Int) rl addr).recLen).toNat
        + (if (initState mem (P : Int) rl addr).writeCnt + 6 <
            (P : Int) then 0 else 1) ≤ (2 * (rl - 4)).toNat := by
      rw [hrl0, hwc0]
      split <;> omega
    have hsome := emitLoop_isSome (P : Int) (initHdr mem) txt hP7
      ((2 * (rl - 4)).toNat) (initState mem (P : Int) rl addr)
      (by rw [hwc0]) (by rw [hwc0]; omega) (by rw [hrl0]; omega) hμ
    obtain ⟨fin, hfin⟩ := Option.isSome_iff_exists.mp hsome
    exact ⟨(2 * (rl - 4)).toNat, fin.closed ++ [fin.cur],
      by rw [emitRecord_of_known _ _ hmem, hfin]⟩

theorem claim_C9_witness :
    ((2 : Nat) = 2 ∨ (2 : Nat) = 1 ∨ (2 : Nat) = 4) ∧ 9 ≤ (9 : Nat) ∧
      (emitCompletes 2 ((9 : Nat) : Int) 5 "000000".toList [] ↔
        1 ≤ (5 : Int) - 4) :=
  ⟨Or.inl rfl, by omega,
    claim_C9 2 (Or.inl rfl) 9 (by omega) 5 "000000".toList []⟩

/-- C5 counterexample: a Y-space record with `byte_count = 4` (empty
payload) and the default packet size 18 never finishes its emission loop —
it does not emit one zero-payload packet and stop, contradicting the
claim. -/
theorem claim_C5_cex :
    emitNeverCompletes 2 18 4 (render6X 0x1234) [] := by
  intro fuel ps hok
  have hdiv : emitLoop 18 (initHdr 2) [] fuel
      (initState 2 18 4 (render6X 0x1234)) = none := by
    apply emitLoop_none_of_nonpos
    refine Or.inr ⟨by norm_num [initState], by norm_num [initState]⟩
  rw [emitRecord_of_known _ _ (Or.inl rfl), hdiv] at hok
  exact absurd hok (by simp)

/-- C5 (amended): for every record whose payload is empty after removing
the header (`byte_count ≤ 4`), a known memory space and a packet size of
at least 9, the emission loop never terminates: `rec_len` starts at or
below zero, the write branch decrements it before the `rec_len != 0` exit
test ever runs, and no later iteration can bring it back to zero. -/
theorem claim_C5 (mem : Nat) (hmem : mem = 2 ∨ mem = 1 ∨ mem = 4)
    (P rl : Int) (hP : 9 ≤ P) (hrl : rl ≤ 4) (addr txt : List Char) :
    emitAlwaysDiverges mem P rl addr txt := by
  intro fuel
  obtain ⟨hrl0, hwc0, _, _, _, _, _⟩ := initState_fields mem P rl addr
  have hdiv : emitLoop P (initHdr mem) txt fuel
      (initState mem P rl addr) = none := by
    apply emitLoop_none_of_nonpos
    rw [hrl0, hwc0]
    omega
  rw [emitRecord_of_known _ _ hmem, hdiv]

theorem packetAt_addrStr {ps : List Packet} {n : Nat}
    {f : Nat → List Char}
    (hmap : ps.map Packet.addrStr = (List.range n).map f)
    (i : Nat) (hi : i < ps.length) : (packetAt ps i).addrStr = f i := by
  have hn : ps.length = n := by
    have h := congrArg List.length hmap
    simpa using h
  have h1 : (ps.map Packet.addrStr)[i]? =
      ((List.range n).map f)[i]? := by rw [hmap]
  rw [List.getElem?_map, List.getElem?_map,
    List.getElem?_range (by omega : i < n)] at h1
  rw [packetAt, List.getD_eq_getElem?_getD]
  cases hx : ps[i]? with
  | none =>
    rw [hx] at h1
    simp at h1
  | some p =>
    rw [hx] at h1
    simpa using h1

theorem packetAt_mem (l : List Packet) (i : Nat) (h : i < l.length) :
    packetAt l i ∈ l := by
  rw [packetAt, List.getD_eq_getElem?_getD, List.getElem?_eq_getElem h]
  simpa using l.getElem_mem h

theorem packetAt_append_left (l ltl : List Packet) (i : Nat)
    (h : i < l.length) : packetAt (l ++ ltl) i = packetAt l i := by
  rw [packetAt, packetAt, List.getD_eq_getElem?_getD,
    List.getD_eq_getElem?_getD, List.getElem?_append_left h]

theorem hexVal_take6_render6X (v : Nat) (hv : v < 16 ^ 6) :
    hexVal 0 ((render6X v).take 6) = v := by
  rw [List.take_of_length_le (Nat.le_of_eq (render6X_length v hv))]
  exact hexVal_render6X v

/-- Full characterization of a completed emission for a record whose
address field is the rendering of `a` and whose continuation addresses all
stay below 2^24: the closed packets are full, the final packet holds the
remainder, and packet `j` renders address `a + j * ((pkt_size - 6) / 3)`. -/
theorem emitRecord_addr_spec (mem : Nat)
    (hmem : mem = 2 ∨ mem = 1 ∨ mem = 4) (P L a : Nat) (hP : 9 ≤ P)
    (hL : 1 ≤ L) (ha : a + L / 3 ≤ 0xFFFFFF) (txt : List Char) :
    ∃ fin : LoopState,
      emitRecord (2 * L) mem (P : Int) ((L : Int) + 4) (render6X a) txt =
        EmitResult.ok (fin.closed ++ [fin.cur]) ∧
      (∀ p ∈ fin.closed, p.payload.length = P - 6) ∧
      1 ≤ fin.cur.payload.length ∧ fin.cur.payload.length ≤ P - 6 ∧
      fin.closed.length * (P - 6) + fin.cur.payload.length = L ∧
      ((fin.closed ++ [fin.cur]).map Packet.addrStr =
        (List.range (fin.closed.length + 1)).map
          (fun j => render6X (a + j * ((P - 6) / 3)))) ∧
      (∀ p ∈ fin.closed ++ [fin.cur],
        p.suffix = p.addrStr.drop (leadZeros6 p.addrStr)) ∧
      (∀ j, j ≤ fin.closed.length → a + j * ((P - 6) / 3) < 16 ^ 6) := by
  have hP7 : (7 : Int) ≤ (P : Int) := by exact_mod_cast (by omega : 7 ≤ P)
  have hd6 : ((P - 6 : Nat) : Int) = (P : Int) - 6 := by
    push_cast [Nat.cast_sub (by omega : 6 ≤ P)]
    ring
  have hwpp : ((P : Int) - 6).tdiv 3 = (((P - 6) / 3 : Nat) : Int) := by
    rw [← hd6]
    exact_mod_cast (Int.ofNat_tdiv (P - 6) 3).symm
  obtain ⟨hrl0, hwc0, hcl0, had0, hca0, hcs0, hpay0⟩ :=
    initState_fields mem (P : Int) ((L : Int) + 4) (render6X a)
  have hμ : (2 * (initState mem (P : Int) ((L : Int) + 4)
        (render6X a)).recLen).toNat
      + (if (initState mem (P : Int) ((L : Int) + 4)
          (render6X a)).writeCnt + 6 < (P : Int) then 0 else 1)
      ≤ 2 * L := by
    rw [hrl0, hwc0]
    split <;> omega
  have hsome := emitLoop_isSome (P : Int) (initHdr mem) txt hP7 (2 * L)
    (initState mem (P : Int) ((L : Int) + 4) (render6X a))
    (by rw [hwc0]) (by rw [hwc0]; omega) (by rw [hrl0]; omega) hμ
  obtain ⟨fin, hfin⟩ := Option.isSome_iff_exists.mp hsome
  have hctrl := emitLoop_run_control (P : Int) (initHdr mem) txt L (2 * L)
    _ fin hfin (by rw [hwc0]) (by rw [hwc0]; omega) (by rw [hrl0]; omega)
    (by rw [hpay0, hwc0]; simp)
    (by rw [hcl0]; simp)
    (by rw [hrl0, hwc0, hcl0]; simp [payloadSum])
  obtain ⟨hw1, hw6, hcpl, hclosed, hcons⟩ := hctrl
  have haddr := emitLoop_run_addr (P : Int) (initHdr mem) txt a
    ((P - 6) / 3) hwpp (2 * L) _ fin hfin
    (by rw [hwc0]) (by rw [hwc0]; omega) (by rw [hrl0]; omega)
    (by rw [had0, hcl0]; simp)
    (by rw [hca0, had0])
    (by rw [hcl0]; simp [hca0, List.range_succ])
    (by
      rw [hcl0]
      intro p hp
      have hpc : p =
          (initState mem (P : Int) ((L : Int) + 4) (render6X a)).cur := by
        simpa using hp
      subst hpc
      rw [hcs0, hca0])
  obtain ⟨hmap, hsuf⟩ := haddr
  have hclosedN : ∀ p ∈ fin.closed, p.payload.length = P - 6 := by
    intro p hp
    have h := hclosed p hp
    rw [← hd6] at h
    exact_mod_cast h
  have hsumInt : (payloadSum fin.closed : Int) =
      (fin.closed.length : Int) * ((P : Int) - 6) :=
    payloadSum_const_int _ _ hclosed
  have hkNat : payloadSum fin.closed = fin.closed.length * (P - 6) := by
    have h := hsumInt
    rw [← hd6] at h
    exact_mod_cast h
  have hc1 : 1 ≤ fin.cur.payload.length := by omega
  have hcd : fin.cur.payload.length ≤ P - 6 := by omega
  have hLNat : fin.closed.length * (P - 6) + fin.cur.payload.length
      = L := by
    rw [← hkNat]
    omega
  refine ⟨fin, by rw [emitRecord_of_known _ _ hmem, hfin], hclosedN,
    hc1, hcd, hLNat, hmap, hsuf, ?_⟩
  intro j hj
  have hkb : fin.closed.length * (P - 6) ≤ L - 1 := by omega
  have hkw : fin.closed.length * ((P - 6) / 3) ≤ L / 3 := by
    calc fin.closed.length * ((P - 6) / 3)
        ≤ fin.closed.length * (P - 6) / 3 :=
          Nat.mul_div_le_mul_div_assoc _ _ _
      _ ≤ (L - 1) / 3 := Nat.div_le_div_right hkb
      _ ≤ L / 3 := Nat.div_le_div_right (by omega)
  have hjw : j * ((P - 6) / 3) ≤ fin.closed.length * ((P - 6) / 3) :=
    Nat.mul_le_mul_right _ hj
  have : a + j * ((P - 6) / 3) ≤ 0xFFFFFF := by omega
  calc a + j * ((P - 6) / 3) ≤ 0xFFFFFF := this
    _ < 16 ^ 6 := by norm_num

/-- C7: every emitted packet's identifier suffix is the packet's
six-hex-digit address string with its leading `'0'` characters stripped —
character stripping, not numeric truncation; in particular address 001234
yields suffix `1234` and address 000000 yields an empty suffix. -/
theorem claim_C7 (mem : Nat) (hmem : mem = 2 ∨ mem = 1 ∨ mem = 4)
    (P L a : Nat) (hP : 9 ≤ P) (hL : 1 ≤ L) (ha : a + L / 3 ≤ 0xFFFFFF)
    (txt : List Char) :
    ∃ fuel ps,
      emitRecord fuel mem (P : Int) ((L : Int) + 4) (render6X a) txt =
        EmitResult.ok ps ∧
      (∀ p ∈ ps, p.addrStr.length = 6 ∧
        p.suffix = p.addrStr.dropWhile (fun c => c = '0')) ∧
      (render6X 0x1234).dropWhile (fun c => c = '0') = "1234".toList ∧
      (render6X 0).dropWhile (fun c => c = '0') = [] := by
  obtain ⟨fin, hok, hclosedN, hc1, hcd, hLNat, hmap, hsuf, hbound⟩ :=
    emitRecord_addr_spec mem hmem P L a hP hL ha txt
  refine ⟨2 * L, fin.closed ++ [fin.cur], hok, ?_, by decide, by decide⟩
  intro p hp
  have hmem' : p.addrStr ∈
      (fin.closed ++ [fin.cur]).map Packet.addrStr :=
    List.mem_map_of_mem _ hp
  rw [hmap] at hmem'
  obtain ⟨j, hj, hje⟩ := List.mem_map.mp hmem'
  have hjlt : j < fin.closed.length + 1 := List.mem_range.mp hj
  have hv : a + j * ((P - 6) / 3) < 16 ^ 6 := hbound j (by omega)
  have hlen : p.addrStr.length = 6 := by
    rw [← hje]
    exact render6X_length _ hv
  exact ⟨hlen, by
    rw [hsuf p hp, drop_leadZeros6_eq_dropWhile _ (by omega)]⟩

theorem claim_C7_witness :
    ((2 : Nat) = 2 ∨ (2 : Nat) = 1 ∨ (2 : Nat) = 4) ∧ 9 ≤ (9 : Nat) ∧
      1 ≤ (1 : Nat) ∧ (0x1234 : Nat) + 1 / 3 ≤ 0xFFFFFF ∧
      (∃ fuel ps,
        emitRecord fuel 2 ((9 : Nat) : Int) (((1 : Nat) : Int) + 4)
          (render6X 0x1234) [] = EmitResult.ok ps ∧
        (∀ p ∈ ps, p.addrStr.length = 6 ∧
          p.suffix = p.addrStr.dropWhile (fun c => c = '0')) ∧
        (render6X 0x1234).dropWhile (fun c => c = '0') = "1234".toList ∧
        (render6X 0).dropWhile (fun c => c = '0') = []) :=
  ⟨Or.inl rfl, by omega, by omega, by norm_num,
    claim_C7 2 (Or.inl rfl) 9 1 0x1234 (by omega) (by omega)
      (by norm_num) []⟩

/-- C2 (amended): in a multi-packet emission whose record address is
well-formed and whose continuation addresses all fit in 24 bits
(`a + L/3 ≤ 0xFFFFFF`), the address rendered in packet `k+1`'s header
equals packet `k`'s rendered address plus packet `k`'s word count (its
payload bytes divided by 3), for every consecutive pair of packets. -/
theorem claim_C2 (mem : Nat) (hmem : mem = 2 ∨ mem = 1 ∨ mem = 4)
    (P L a : Nat) (hP : 9 ≤ P) (hP3 : P % 3 = 0) (hmulti : P - 6 < L)
    (ha : a + L / 3 ≤ 0xFFFFFF) (txt : List Char) :
    ∃ fuel ps,
      emitRecord fuel mem (P : Int) ((L : Int) + 4) (render6X a) txt =
        EmitResult.ok ps ∧
      2 ≤ ps.length ∧
      ∀ k, k + 1 < ps.length →
        hexVal 0 ((packetAt ps (k + 1)).addrStr.take 6) =
          hexVal 0 ((packetAt ps k).addrStr.take 6) +
            (packetAt ps k).payload.length / 3 := by
  have hL : 1 ≤ L := by omega
  obtain ⟨fin, hok, hclosedN, hc1, hcd, hLNat, hmap, hsuf, hbound⟩ :=
    emitRecord_addr_spec mem hmem P L a hP hL ha txt
  have hk1 : 1 ≤ fin.closed.length := by
    by_contra h0
    have hz : fin.closed.length = 0 := by omega
    rw [hz] at hLNat
    omega
  have hlen : (fin.closed ++ [fin.cur]).length =
      fin.closed.length + 1 := by simp
  refine ⟨2 * L, fin.closed ++ [fin.cur], hok, by omega, ?_⟩
  intro k hk
  rw [hlen] at hk
  have ha1 : (packetAt (fin.closed ++ [fin.cur]) (k + 1)).addrStr =
      render6X (a + (k + 1) * ((P - 6) / 3)) :=
    packetAt_addrStr hmap (k + 1) (by omega)
  have ha0 : (packetAt (fin.closed ++ [fin.cur]) k).addrStr =
      render6X (a + k * ((P - 6) / 3)) :=
    packetAt_addrStr hmap k (by omega)
  have hpk : (packetAt (fin.closed ++ [fin.cur]) k).payload.length =
      P - 6 := by
    rw [packetAt_append_left _ _ k (by omega)]
    exact hclosedN _ (packetAt_mem _ k (by omega))
  rw [ha1, ha0, hpk,
    hexVal_take6_render6X _ (hbound (k + 1) (by omega)),
    hexVal_take6_render6X _ (hbound k (by omega))]
  ring

theorem claim_C2_witness :
    ((2 : Nat) = 2 ∨ (2 : Nat) = 1 ∨ (2 : Nat) = 4) ∧ 9 ≤ (9 : Nat) ∧
      (9 : Nat) % 3 = 0 ∧ (9 : Nat) - 6 < 4 ∧
      (0x1234 : Nat) + 4 / 3 ≤ 0xFFFFFF ∧
      (∃ fuel ps,
        emitRecord fuel 2 ((9 : Nat) : Int) (((4 : Nat) : Int) + 4)
          (render6X 0x1234) "00010203".toList = EmitResult.ok ps ∧
        2 ≤ ps.length ∧
        ∀ k, k + 1 < ps.length →
          hexVal 0 ((packetAt ps (k + 1)).addrStr.take 6) =
            hexVal 0 ((packetAt ps k).addrStr.take 6) +
              (packetAt ps k).payload.length / 3) :=
  ⟨Or.inl rfl, by omega, by decide, by omega, by norm_num,
    claim_C2 2 (Or.inl rfl) 9 4 0x1234 (by omega) (by decide) (by omega)
      (by norm_num) "00010203".toList⟩

theorem claim_C5_witness :
    ((1 : Nat) = 2 ∨ (1 : Nat) = 1 ∨ (1 : Nat) = 4) ∧ (9 : Int) ≤ 9 ∧
      (3 : Int) ≤ 4 ∧ emitAlwaysDiverges 1 9 3 "000000".toList [] :=
  ⟨Or.inr (Or.inl rfl), by omega, by omega,
    claim_C5 1 (Or.inr (Or.inl rfl)) 9 3 (by omega) (by omega)
      "000000".toList []⟩

end Srec2Inc
